import Mathlib

/-!
Shallow embedding of the program-text segmenter in `web_api_server.py`
(`generate_program`, the block that splits the model's weekly-program text
into per-day entries).

Modelling choices, all taken from the source:
* text is a `List Char`;
* the Python dict `weekly_program` is an insertion-ordered association list
  with overwrite-on-existing-key (`dictInsert` / `insertAll`);
* `re.finditer(sep, text, re.IGNORECASE)` over the five candidate separators
  `Day (\d+):`, `Day (\d+)\n`, `Day (\d+)`, `DAY (\d+):`, `DAY (\d+)` is an
  explicit left-to-right non-overlapping scan (`findMatches`), where the
  digit class is the ASCII digits and letter comparison is case-insensitive;
* `str.strip()` removes the six ASCII whitespace characters from both ends
  (`pstrip`); `str.split(chr(10))` is `splitNL`, `join` is `joinNL`;
* `int(match.group(1))` on the captured digit run is `digitsToNat`; the
  error-aware variant of the whole computation (`segmentE`) makes the two
  fallible spots explicit: integer parsing (`parseIntE`) and the integer
  division by `expectedDays` on the fallback path.
-/

namespace FitnessSeg

/-- The three separator layouts of the candidate regexes: a trailing colon
(`Day (\d+):`), a trailing newline (`Day (\d+)\n`), or bare (`Day (\d+)`). -/
inductive HeadTail
  | colon
  | newline
  | bare
  deriving DecidableEq

/-- Case-insensitive character comparison, as `re.IGNORECASE` applies it. -/
def ciEq (a b : Char) : Bool := a.toLower == b.toLower

/-- `ciLeading p s` : the literal characters `p` match at the head of `s`,
letters case-insensitively (`re.IGNORECASE`). -/
def ciLeading : List Char → List Char → Bool
  | [], _ => true
  | _ :: _, [] => false
  | p :: ps, c :: cs => ciEq p c && ciLeading ps cs

/-- Decimal value of a digit run, as `int` computes it on the group text. -/
def digitsToNat (ds : List Char) : Nat :=
  ds.foldl (fun n c => 10 * n + (c.toNat - 48)) 0

/-- Try to match one candidate regex at the head of `s`: the word `pw`
(`Day` or `DAY`, case-insensitively), a space, a maximal nonempty ASCII
digit run (the capture group), then the layout-specific tail.  Returns the
captured digit run and the length of the whole match (which includes the
trailing colon or newline when the layout demands one). -/
def matchHere (pw : List Char) (t : HeadTail) (s : List Char) :
    Option (List Char × Nat) :=
  if ciLeading (pw ++ [' ']) s then
    let rest := s.drop (pw.length + 1)
    let ds := rest.takeWhile Char.isDigit
    let rest2 := rest.dropWhile Char.isDigit
    if ds = [] then none
    else
      match t with
      | .bare => some (ds, pw.length + 1 + ds.length)
      | .colon =>
          if rest2.head? = some ':' then
            some (ds, pw.length + 1 + ds.length + 1)
          else none
      | .newline =>
          if rest2.head? = some '\n' then
            some (ds, pw.length + 1 + ds.length + 1)
          else none
  else none

/-- `re.finditer`: scan `s` left to right one character at a time, emitting
non-overlapping matches as pairs (absolute start offset, captured digit
run).  `skip` counts characters still to be consumed by the last emitted
match (its length is always ≥ 1, so after emitting, one character is
consumed here and `len - 1` more are skipped): the scan resumes right
after each match. -/
def findMatchesAux (pw : List Char) (t : HeadTail) :
    List Char → Nat → Nat → List (Nat × List Char)
  | [], _, _ => []
  | c :: cs, pos, skip =>
    match skip with
    | sk + 1 => findMatchesAux pw t cs (pos + 1) sk
    | 0 =>
      match matchHere pw t (c :: cs) with
      | some (g, len) => (pos, g) :: findMatchesAux pw t cs (pos + 1) (len - 1)
      | none => findMatchesAux pw t cs (pos + 1) 0

/-- All matches of a candidate regex in `s`, with absolute offsets starting
at `pos`. -/
def findMatches (pw : List Char) (t : HeadTail) (s : List Char) (pos : Nat) :
    List (Nat × List Char) :=
  findMatchesAux pw t s pos 0

/-- The word of the first three candidate regexes. -/
def dayLower : List Char := ['D', 'a', 'y']

/-- The word of the last two candidate regexes. -/
def dayUpper : List Char := ['D', 'A', 'Y']

/-- The five candidate separators, in the declared order of
`possible_separators`. -/
def patterns : List (List Char × HeadTail) :=
  [(dayLower, HeadTail.colon), (dayLower, HeadTail.newline),
   (dayLower, HeadTail.bare), (dayUpper, HeadTail.colon),
   (dayUpper, HeadTail.bare)]

/-- All matches of one candidate separator in `text`. -/
def matchesOf (p : List Char × HeadTail) (text : List Char) :
    List (Nat × List Char) :=
  findMatches p.1 p.2 text 0

/-- The separator-selection loop: return the match list of the first
candidate with at least `n` matches (`len(matches) >= ...` then `break`),
or `none` when every candidate falls short (`parsed` stays false). -/
def firstSufficient (text : List Char) (n : Nat) :
    List (List Char × HeadTail) → Option (List (Nat × List Char))
  | [] => none
  | p :: ps =>
    let ms := matchesOf p text
    if n ≤ ms.length then some ms else firstSufficient text n ps

/-- The six ASCII whitespace characters `str.strip()` removes. -/
def isSpaceCh (c : Char) : Bool :=
  c == ' ' || c == '\t' || c == '\n' || c == '\r' || c == '\x0b' || c == '\x0c'

/-- Remove trailing whitespace. -/
def rstripCh (s : List Char) : List Char :=
  (s.reverse.dropWhile isSpaceCh).reverse

/-- `str.strip()`: remove leading and trailing whitespace. -/
def pstrip (s : List Char) : List Char :=
  rstripCh (s.dropWhile isSpaceCh)

/-- The per-match loop body over `matches[:n]`: key the parsed day number
to the trimmed slice of `text` from this match's start to the next match's
start in the full match list, or to the end of `text` when this match is
the last of the full list. -/
def buildSegs (text : List Char) :
    List (Nat × List Char) → Nat → List (Nat × List Char)
  | _, 0 => []
  | [], _ + 1 => []
  | (st, g) :: rest, k + 1 =>
    let endPos :=
      match rest with
      | (st2, _) :: _ => st2
      | [] => text.length
    (digitsToNat g, pstrip ((text.drop st).take (endPos - st)))
      :: buildSegs text rest k

/-- Python dict assignment `d[k] = v`: overwrite in place when the key is
present, append otherwise (insertion order preserved). -/
def dictInsert (d : List (Nat × List Char)) (k : Nat) (v : List Char) :
    List (Nat × List Char) :=
  if d.any (fun p => p.1 == k) then
    d.map (fun p => if p.1 == k then (k, v) else p)
  else d ++ [(k, v)]

/-- Run a sequence of dict assignments in order. -/
def insertAll (d : List (Nat × List Char)) (l : List (Nat × List Char)) :
    List (Nat × List Char) :=
  l.foldl (fun acc p => dictInsert acc p.1 p.2) d

/-- `str.split(chr(10))` (note `"".split` gives one empty field). -/
def splitNL : List Char → List (List Char)
  | [] => [[]]
  | c :: cs =>
    if c = '\n' then [] :: splitNL cs
    else
      match splitNL cs with
      | l :: ls => (c :: l) :: ls
      | [] => [[c]]

/-- `chr(10).join`. -/
def joinNL : List (List Char) → List Char
  | [] => []
  | [l] => l
  | l :: l2 :: ls => l ++ '\n' :: joinNL (l2 :: ls)

/-- The synthesized heading `f"Day {day}:\n"` of the fallback path. -/
def headChars (d : Nat) : List Char :=
  "Day ".toList ++ (toString d).toList ++ ":\n".toList

/-- The lines the fallback assigns to day `d` (1-indexed): slice
`[(d-1)*lpd, d*lpd)` of the lines of the stripped text, the last day taking
everything to the end, with `lpd = max 1 (totalLines / n)`. -/
def fallbackDayLines (text : List Char) (n d : Nat) : List (List Char) :=
  let lines := splitNL (pstrip text)
  let lpd := max 1 (lines.length / n)
  let startL := (d - 1) * lpd
  let endL := if d < n then d * lpd else lines.length
  (lines.drop startL).take (endL - startL)

/-- The fallback loop: day `d` maps to the synthesized heading followed by
its joined lines. -/
def fallbackSeg (text : List Char) (n : Nat) : List (Nat × List Char) :=
  (List.range n).map
    (fun d0 =>
      (d0 + 1, headChars (d0 + 1) ++ joinNL (fallbackDayLines text n (d0 + 1))))

/-- The whole segmenter: try the candidates in order, segment with the
first sufficient one; otherwise divide the text equally among the days. -/
def segment (text : List Char) (n : Nat) : List (Nat × List Char) :=
  match firstSufficient text n patterns with
  | some ms => insertAll [] (buildSegs text ms n)
  | none => insertAll [] (fallbackSeg text n)

/-- Dict lookup on the result. -/
def lookupDay (d : List (Nat × List Char)) (k : Nat) : Option (List Char) :=
  (d.find? (fun p => p.1 == k)).map Prod.snd

/-- The day numbers the run will key: on the separator path, the parsed
numbers of the taken matches; on the fallback path, `1 .. n`. -/
def takenNums (text : List Char) (n : Nat) : List Nat :=
  match firstSufficient text n patterns with
  | some ms => (ms.take n).map (fun m => digitsToNat m.2)
  | none => (List.range n).map (· + 1)

/-- `int(s)` on the captured group, error-aware: fails unless the text is a
nonempty digit run. -/
def parseIntE (ds : List Char) : Except String Nat :=
  if !ds.isEmpty && ds.all Char.isDigit then Except.ok (digitsToNat ds)
  else Except.error "invalid literal for int"

/-- The per-match loop with the `int(...)` call kept fallible. -/
def buildSegsE (text : List Char) :
    List (Nat × List Char) → Nat → Except String (List (Nat × List Char))
  | _, 0 => Except.ok []
  | [], _ + 1 => Except.ok []
  | (st, g) :: rest, k + 1 => do
    let num ← parseIntE g
    let endPos :=
      match rest with
      | (st2, _) :: _ => st2
      | [] => text.length
    let tl ← buildSegsE text rest k
    Except.ok ((num, pstrip ((text.drop st).take (endPos - st))) :: tl)

/-- The whole segmenter with its fallible operations explicit: the integer
parse of each capture group, and the integer division by `n` on the
fallback path. -/
def segmentE (text : List Char) (n : Nat) :
    Except String (List (Nat × List Char)) :=
  match firstSufficient text n patterns with
  | some ms => do
      let segs ← buildSegsE text ms n
      Except.ok (insertAll [] segs)
  | none =>
      if n == 0 then Except.error "integer division or modulo by zero"
      else Except.ok (insertAll [] (fallbackSeg text n))

/-- The first three candidate separators only. -/
def patternsFirstThree : List (List Char × HeadTail) :=
  [(dayLower, HeadTail.colon), (dayLower, HeadTail.newline),
   (dayLower, HeadTail.bare)]

/-- The segmenter restricted to the first three candidates. -/
def segmentFirstThree (text : List Char) (n : Nat) : List (Nat × List Char) :=
  match firstSufficient text n patternsFirstThree with
  | some ms => insertAll [] (buildSegs text ms n)
  | none => insertAll [] (fallbackSeg text n)

/-- The end offset the loop computes for the `i`-th match: the start of
match `i+1` in the full match list, or the text length when there is none. -/
def nextStart (text : List Char) (ms : List (Nat × List Char)) (i : Nat) : Nat :=
  match ms[i + 1]? with
  | some m2 => m2.1
  | none => text.length

/-! ### Basic facts about a single match -/

lemma takeWhile_all {p : Char → Bool} {l g : List Char}
    (hg : g = l.takeWhile p) : g.all p = true := by
  subst hg
  simp only [List.all_eq_true]
  intro c hc
  exact List.mem_takeWhile_imp hc

lemma matchHere_some {pw : List Char} {t : HeadTail} {s g : List Char}
    {len : Nat} (h : matchHere pw t s = some (g, len)) :
    g ≠ [] ∧ g.all Char.isDigit = true ∧ 1 ≤ len ∧
      ciLeading (pw ++ [' ']) s = true := by
  cases t with
  | bare =>
    simp only [matchHere] at h
    split at h
    · next hci =>
      split at h
      · exact absurd h (by simp)
      · next hds =>
        simp only [Option.some.injEq, Prod.mk.injEq] at h
        obtain ⟨hg, hlen⟩ := h
        exact ⟨by rw [← hg]; exact hds, takeWhile_all hg.symm, by omega, hci⟩
    · exact absurd h (by simp)
  | colon =>
    simp only [matchHere] at h
    split at h
    · next hci =>
      split at h
      · exact absurd h (by simp)
      · next hds =>
        split at h
        · simp only [Option.some.injEq, Prod.mk.injEq] at h
          obtain ⟨hg, hlen⟩ := h
          exact ⟨by rw [← hg]; exact hds, takeWhile_all hg.symm, by omega, hci⟩
        · exact absurd h (by simp)
    · exact absurd h (by simp)
  | newline =>
    simp only [matchHere] at h
    split at h
    · next hci =>
      split at h
      · exact absurd h (by simp)
      · next hds =>
        split at h
        · simp only [Option.some.injEq, Prod.mk.injEq] at h
          obtain ⟨hg, hlen⟩ := h
          exact ⟨by rw [← hg]; exact hds, takeWhile_all hg.symm, by omega, hci⟩
        · exact absurd h (by simp)
    · exact absurd h (by simp)

lemma ciLeading_head {p : Char} {ps s : List Char}
    (h : ciLeading (p :: ps) s = true) :
    ∃ c cs, s = c :: cs ∧ ciEq p c = true := by
  cases s with
  | nil => simp [ciLeading] at h
  | cons c cs =>
    simp only [ciLeading, Bool.and_eq_true] at h
    exact ⟨c, cs, rfl, h.1⟩

/-! ### Facts about the scan -/

/-- Every emitted match starts inside the scanned region, at or after the
scan position, and the text at its start offset really matches the regex
there. -/
lemma findMatchesAux_mem {pw : List Char} {t : HeadTail} :
    ∀ (s : List Char) (pos skip : Nat), ∀ m ∈ findMatchesAux pw t s pos skip,
      pos ≤ m.1 ∧ m.1 < pos + s.length ∧
        ∃ len, matchHere pw t (s.drop (m.1 - pos)) = some (m.2, len) := by
  intro s
  induction s with
  | nil => intro pos skip m hm; simp [findMatchesAux] at hm
  | cons c cs ih =>
    have hstep : ∀ (pos : Nat) (m : Nat × List Char), pos + 1 ≤ m.1 →
        (∃ len, matchHere pw t (cs.drop (m.1 - (pos + 1))) = some (m.2, len)) →
        ∃ len, matchHere pw t ((c :: cs).drop (m.1 - pos)) = some (m.2, len) := by
      intro pos m hle ⟨len2, hmh⟩
      refine ⟨len2, ?_⟩
      have hd : (c :: cs).drop (m.1 - pos) = cs.drop (m.1 - pos - 1) := by
        have h1 : m.1 - pos = (m.1 - pos - 1) + 1 := by omega
        calc (c :: cs).drop (m.1 - pos)
            = (c :: cs).drop ((m.1 - pos - 1) + 1) := by rw [← h1]
          _ = cs.drop (m.1 - pos - 1) := List.drop_succ_cons
      rw [hd]
      have harith : m.1 - pos - 1 = m.1 - (pos + 1) := by omega
      rw [harith]
      exact hmh
    intro pos skip m hm
    cases skip with
    | succ sk =>
      simp only [findMatchesAux] at hm
      obtain ⟨hle, hlt, hmh⟩ := ih (pos + 1) sk m hm
      exact ⟨by omega, by simp; omega, hstep pos m hle hmh⟩
    | zero =>
      simp only [findMatchesAux] at hm
      cases hmc : matchHere pw t (c :: cs) with
      | some r =>
        obtain ⟨g, len⟩ := r
        rw [hmc] at hm
        rcases List.mem_cons.mp hm with h1 | h2
        · subst h1
          exact ⟨le_refl _, by simp, len, by simpa using hmc⟩
        · obtain ⟨hle, hlt, hmh⟩ := ih (pos + 1) (len - 1) m h2
          exact ⟨by omega, by simp; omega, hstep pos m hle hmh⟩
      | none =>
        rw [hmc] at hm
        obtain ⟨hle, hlt, hmh⟩ := ih (pos + 1) 0 m hm
        exact ⟨by omega, by simp; omega, hstep pos m hle hmh⟩

lemma findMatches_mem {pw : List Char} {t : HeadTail} :
    ∀ (s : List Char) (pos : Nat), ∀ m ∈ findMatches pw t s pos,
      pos ≤ m.1 ∧ m.1 < pos + s.length ∧
        ∃ len, matchHere pw t (s.drop (m.1 - pos)) = some (m.2, len) :=
  fun s pos => findMatchesAux_mem s pos 0

/-- Match start offsets are strictly increasing along the scan. -/
lemma findMatchesAux_chain {pw : List Char} {t : HeadTail} :
    ∀ (s : List Char) (pos skip : Nat),
      List.Chain' (fun a b => a.1 < b.1) (findMatchesAux pw t s pos skip) := by
  intro s
  induction s with
  | nil => intro pos skip; simp [findMatchesAux]
  | cons c cs ih =>
    intro pos skip
    cases skip with
    | succ sk =>
      simp only [findMatchesAux]
      exact ih (pos + 1) sk
    | zero =>
      simp only [findMatchesAux]
      cases hmc : matchHere pw t (c :: cs) with
      | some r =>
        obtain ⟨g, len⟩ := r
        rw [List.chain'_cons']
        refine ⟨?_, ih (pos + 1) (len - 1)⟩
        intro b hb
        have hbmem : b ∈ findMatchesAux pw t cs (pos + 1) (len - 1) :=
          List.mem_of_mem_head? hb
        have := (findMatchesAux_mem cs (pos + 1) (len - 1) b hbmem).1
        simp only []
        omega
      | none =>
        exact ih (pos + 1) 0

lemma findMatches_chain {pw : List Char} {t : HeadTail} :
    ∀ (s : List Char) (pos : Nat),
      List.Chain' (fun a b => a.1 < b.1) (findMatches pw t s pos) :=
  fun s pos => findMatchesAux_chain s pos 0

/-! ### Facts about pattern selection -/

lemma firstSufficient_le {text : List Char} {n : Nat} :
    ∀ {ps : List (List Char × HeadTail)} {ms : List (Nat × List Char)},
      firstSufficient text n ps = some ms → n ≤ ms.length := by
  intro ps
  induction ps with
  | nil => intro ms h; simp [firstSufficient] at h
  | cons p ps ih =>
    intro ms h
    simp only [firstSufficient] at h
    split at h
    · cases h
      assumption
    · exact ih h

lemma firstSufficient_spec {text : List Char} {n : Nat} :
    ∀ {ps : List (List Char × HeadTail)} {ms : List (Nat × List Char)},
      firstSufficient text n ps = some ms →
      ∃ p ∈ ps, ms = matchesOf p text := by
  intro ps
  induction ps with
  | nil => intro ms h; simp [firstSufficient] at h
  | cons p ps ih =>
    intro ms h
    simp only [firstSufficient] at h
    split at h
    · cases h
      exact ⟨p, by simp, rfl⟩
    · obtain ⟨q, hq, hms⟩ := ih h
      exact ⟨q, by simp [hq], hms⟩

lemma firstSufficient_first {text : List Char} {n : Nat} :
    ∀ (pre : List (List Char × HeadTail)) (p : List Char × HeadTail)
      (post : List (List Char × HeadTail)),
      (∀ q ∈ pre, (matchesOf q text).length < n) →
      n ≤ (matchesOf p text).length →
      firstSufficient text n (pre ++ p :: post) = some (matchesOf p text) := by
  intro pre
  induction pre with
  | nil =>
    intro p post _ hp
    simp [firstSufficient, hp]
  | cons q pre ih =>
    intro p post hpre hp
    have hq : (matchesOf q text).length < n := hpre q (by simp)
    simp only [List.cons_append, firstSufficient]
    rw [if_neg (by omega)]
    exact ih p post (fun r hr => hpre r (by simp [hr])) hp

/-! ### Facts about segment construction -/

lemma buildSegs_length (text : List Char) :
    ∀ (ms : List (Nat × List Char)) (k : Nat),
      (buildSegs text ms k).length = min k ms.length := by
  intro ms
  induction ms with
  | nil => intro k; cases k <;> simp [buildSegs]
  | cons m rest ih =>
    intro k
    cases k with
    | zero => simp [buildSegs]
    | succ k =>
      obtain ⟨st, g⟩ := m
      simp only [buildSegs, List.length_cons, ih]
      omega

lemma buildSegs_map_fst (text : List Char) :
    ∀ (ms : List (Nat × List Char)) (k : Nat),
      (buildSegs text ms k).map Prod.fst =
        (ms.take k).map (fun m => digitsToNat m.2) := by
  intro ms
  induction ms with
  | nil => intro k; cases k <;> simp [buildSegs]
  | cons m rest ih =>
    intro k
    cases k with
    | zero => simp [buildSegs]
    | succ k =>
      obtain ⟨st, g⟩ := m
      simp [buildSegs, ih]

lemma buildSegs_get (text : List Char) :
    ∀ (ms : List (Nat × List Char)) (k i st : Nat) (g : List Char),
      i < k → ms[i]? = some (st, g) →
      (buildSegs text ms k)[i]? =
        some (digitsToNat g,
          pstrip ((text.drop st).take (nextStart text ms i - st))) := by
  intro ms
  induction ms with
  | nil =>
    intro k i st g hik h
    simp at h
  | cons m rest ih =>
    intro k i st g hik h
    cases k with
    | zero => omega
    | succ k =>
      obtain ⟨st0, g0⟩ := m
      cases i with
      | zero =>
        simp only [List.getElem?_cons_zero, Option.some.injEq] at h
        obtain ⟨h1, h2⟩ := Prod.mk.injEq .. |>.mp h.symm
        subst h1
        subst h2
        cases rest with
        | nil => simp [buildSegs, nextStart]
        | cons m2 rest2 => simp [buildSegs, nextStart]
      | succ i =>
        simp only [List.getElem?_cons_succ] at h
        simp only [buildSegs, List.getElem?_cons_succ]
        rw [ih k i st g (by omega) h]
        have hns : nextStart text rest i = nextStart text ((st0, g0) :: rest) (i + 1) := by
          simp [nextStart]
        rw [hns]

/-! ### Facts about the dict -/

lemma dictInsert_fresh {d : List (Nat × List Char)} {k : Nat} {v : List Char}
    (h : k ∉ d.map Prod.fst) : dictInsert d k v = d ++ [(k, v)] := by
  unfold dictInsert
  rw [if_neg]
  intro hany
  rw [List.any_eq_true] at hany
  obtain ⟨p, hp, hpk⟩ := hany
  exact h (List.mem_map.mpr ⟨p, hp, by simpa using hpk⟩)

lemma insertAll_eq_append :
    ∀ (l d : List (Nat × List Char)),
      (∀ k ∈ l.map Prod.fst, k ∉ d.map Prod.fst) →
      (l.map Prod.fst).Nodup →
      insertAll d l = d ++ l := by
  intro l
  induction l with
  | nil => intro d _ _; simp [insertAll]
  | cons p l ih =>
    intro d hfresh hnd
    rw [List.map_cons] at hnd
    have hnd' := List.nodup_cons.mp hnd
    have hfresh2 : ∀ k ∈ l.map Prod.fst, k ∉ (d ++ [(p.1, p.2)]).map Prod.fst := by
      intro k hk
      rw [List.map_append, List.mem_append]
      rintro (hkd | hkp)
      · exact hfresh k (by simp [hk]) hkd
      · simp only [List.map_cons, List.map_nil, List.mem_singleton] at hkp
        exact hnd'.1 (hkp ▸ hk)
    calc insertAll d (p :: l)
        = insertAll (dictInsert d p.1 p.2) l := rfl
      _ = insertAll (d ++ [(p.1, p.2)]) l := by
          rw [dictInsert_fresh (hfresh p.1 (by simp))]
      _ = (d ++ [(p.1, p.2)]) ++ l := ih _ hfresh2 hnd'.2
      _ = d ++ p :: l := by simp

lemma lookupDay_eq_of_mem :
    ∀ (l : List (Nat × List Char)) (k : Nat) (v : List Char),
      (l.map Prod.fst).Nodup → (k, v) ∈ l → lookupDay l k = some v := by
  intro l
  induction l with
  | nil => intro k v _ h; simp at h
  | cons p l ih =>
    intro k v hnd hmem
    rw [List.map_cons] at hnd
    have hnd' := List.nodup_cons.mp hnd
    rcases List.mem_cons.mp hmem with h1 | h2
    · unfold lookupDay
      rw [← h1]
      rw [@List.find?_cons_of_pos _ (fun q => q.1 == k) (k, v) l (by simp)]
      rfl
    · have hk : ¬((fun q : Nat × List Char => q.1 == k) p) = true := by
        simp only [beq_iff_eq]
        intro hkp
        exact hnd'.1 (List.mem_map.mpr ⟨(k, v), h2, by simp [hkp]⟩)
      unfold lookupDay
      rw [@List.find?_cons_of_neg _ (fun q => q.1 == k) p l hk]
      exact ih k v hnd'.2 h2

/-! ### Facts about the fallback path -/

lemma fallbackSeg_map_fst (text : List Char) (n : Nat) :
    (fallbackSeg text n).map Prod.fst = (List.range n).map (· + 1) := by
  simp [fallbackSeg, List.map_map]

lemma fallbackSeg_nodup_keys (text : List Char) (n : Nat) :
    ((fallbackSeg text n).map Prod.fst).Nodup := by
  rw [fallbackSeg_map_fst]
  exact List.Nodup.map (fun a b h => by omega) (List.nodup_range n)

lemma fallbackSeg_length (text : List Char) (n : Nat) :
    (fallbackSeg text n).length = n := by
  simp [fallbackSeg]

lemma fallbackSeg_mem (text : List Char) (n d : Nat) (h1 : 1 ≤ d) (h2 : d ≤ n) :
    (d, headChars d ++ joinNL (fallbackDayLines text n d)) ∈ fallbackSeg text n := by
  unfold fallbackSeg
  rw [List.mem_map]
  refine ⟨d - 1, ?_, ?_⟩
  · rw [List.mem_range]; omega
  · have hd : d - 1 + 1 = d := by omega
    rw [hd]

lemma segment_fallback {text : List Char} {n : Nat}
    (h : firstSufficient text n patterns = none) :
    segment text n = fallbackSeg text n := by
  unfold segment
  rw [h]
  rw [insertAll_eq_append (fallbackSeg text n) [] (by simp)
    (fallbackSeg_nodup_keys text n)]
  simp

/-! ### Facts about trimming -/

lemma head?_dropWhile {p : Char → Bool} :
    ∀ {l : List Char} {c : Char}, (l.dropWhile p).head? = some c → p c = false := by
  intro l
  induction l with
  | nil => intro c h; simp at h
  | cons a as ih =>
    intro c h
    rw [List.dropWhile_cons] at h
    split at h
    · exact ih h
    · rename_i ha
      simp only [List.head?_cons, Option.some.injEq] at h
      subst h
      simpa using ha

lemma getLast?_dropWhile {p : Char → Bool} :
    ∀ {l : List Char}, l.dropWhile p ≠ [] → (l.dropWhile p).getLast? = l.getLast? := by
  intro l
  induction l with
  | nil => intro h; simp at h
  | cons a as ih =>
    intro h
    rw [List.dropWhile_cons] at h ⊢
    by_cases ha : p a
    · rw [if_pos ha] at h ⊢
      rw [ih h]
      have hne : as ≠ [] := by
        intro habs
        rw [habs] at h
        simp at h
      cases as with
      | nil => exact absurd rfl hne
      | cons b bs => rw [List.getLast?_cons_cons]
    · rw [if_neg ha]

lemma dropWhile_eq_self_of_head {p : Char → Bool} {l : List Char}
    (h : ∀ c, l.head? = some c → p c = false) : l.dropWhile p = l := by
  cases l with
  | nil => rfl
  | cons a as =>
    rw [List.dropWhile_cons, if_neg]
    rw [h a rfl]
    simp

lemma rstripCh_idem (l : List Char) : rstripCh (rstripCh l) = rstripCh l := by
  unfold rstripCh
  rw [List.reverse_reverse, List.dropWhile_idempotent]

lemma head?_rstripCh {l : List Char} {c : Char}
    (h : (rstripCh l).head? = some c) : l.head? = some c := by
  unfold rstripCh at h
  rw [List.head?_reverse] at h
  have hne : l.reverse.dropWhile isSpaceCh ≠ [] := by
    intro habs
    rw [habs] at h
    simp at h
  rw [getLast?_dropWhile hne, List.getLast?_reverse] at h
  exact h

lemma pstrip_idem (s : List Char) : pstrip (pstrip s) = pstrip s := by
  unfold pstrip
  have h1 : (rstripCh (s.dropWhile isSpaceCh)).dropWhile isSpaceCh
      = rstripCh (s.dropWhile isSpaceCh) := by
    apply dropWhile_eq_self_of_head
    intro c hc
    exact head?_dropWhile (head?_rstripCh hc)
  rw [h1, rstripCh_idem]

lemma dropWhile_append_singleton_ne_nil {p : Char → Bool} {c : Char}
    (hc : p c = false) : ∀ xs : List Char, (xs ++ [c]).dropWhile p ≠ [] := by
  intro xs
  induction xs with
  | nil =>
    rw [List.nil_append, List.dropWhile_cons, if_neg (by simp [hc])]
    simp
  | cons x xs ih =>
    rw [List.cons_append, List.dropWhile_cons]
    split
    · exact ih
    · simp

lemma pstrip_cons_ne_nil {c : Char} {r : List Char}
    (hc : isSpaceCh c = false) : pstrip (c :: r) ≠ [] := by
  unfold pstrip
  rw [List.dropWhile_cons, if_neg (by simp [hc])]
  unfold rstripCh
  intro habs
  rw [List.reverse_eq_nil_iff] at habs
  have : (c :: r).reverse = r.reverse ++ [c] := by simp
  rw [this] at habs
  exact dropWhile_append_singleton_ne_nil hc r.reverse habs

/-! ### The fallback slices partition the stripped lines -/

lemma chunks_take (ls : List (List Char)) (c : Nat) :
    ∀ m : Nat,
      ((List.range m).map (fun i => (ls.drop (i * c)).take c)).flatten
        = ls.take (m * c) := by
  intro m
  induction m with
  | zero => simp
  | succ m ih =>
    rw [List.range_succ, List.map_append, List.flatten_append, ih]
    simp only [List.map_cons, List.map_nil, List.flatten_cons, List.flatten_nil,
      List.append_nil]
    rw [Nat.succ_mul, List.take_add]

lemma slices_flatten (ls : List (List Char)) (c m : Nat) :
    ((List.range (m + 1)).map (fun d0 =>
        (ls.drop (d0 * c)).take
          ((if d0 + 1 < m + 1 then (d0 + 1) * c else ls.length) - d0 * c))).flatten
      = ls := by
  rw [List.range_succ, List.map_append, List.flatten_append]
  have h1 : (List.range m).map (fun d0 =>
        (ls.drop (d0 * c)).take
          ((if d0 + 1 < m + 1 then (d0 + 1) * c else ls.length) - d0 * c))
      = (List.range m).map (fun i => (ls.drop (i * c)).take c) := by
    apply List.map_congr_left
    intro d0 hd0
    rw [List.mem_range] at hd0
    rw [if_pos (by omega)]
    have hmul : (d0 + 1) * c = d0 * c + c := by ring
    rw [hmul]
    congr 1
    omega
  rw [h1, chunks_take]
  simp only [List.map_cons, List.map_nil, List.flatten_cons, List.flatten_nil,
    List.append_nil]
  rw [if_neg (by omega : ¬(m + 1 < m + 1))]
  have htake : (List.drop (m * c) ls).take (ls.length - m * c) = List.drop (m * c) ls :=
    List.take_of_length_le (by simp [List.length_drop])
  rw [htake]
  exact List.take_append_drop ..

lemma fallback_partition (text : List Char) (n : Nat) (hn : 0 < n) :
    ((List.range n).map (fun d0 => fallbackDayLines text n (d0 + 1))).flatten
      = splitNL (pstrip text) := by
  obtain ⟨m, rfl⟩ : ∃ m, n = m + 1 := ⟨n - 1, by omega⟩
  have h1 : (List.range (m + 1)).map (fun d0 => fallbackDayLines text (m + 1) (d0 + 1))
      = (List.range (m + 1)).map (fun d0 =>
          ((splitNL (pstrip text)).drop (d0 * max 1 ((splitNL (pstrip text)).length / (m + 1)))).take
            ((if d0 + 1 < m + 1 then
                (d0 + 1) * max 1 ((splitNL (pstrip text)).length / (m + 1))
              else (splitNL (pstrip text)).length)
              - d0 * max 1 ((splitNL (pstrip text)).length / (m + 1)))) := by
    apply List.map_congr_left
    intro d0 _
    simp only [fallbackDayLines]
    rw [Nat.add_sub_cancel]
  rw [h1, slices_flatten]

/-! ### The error-aware run always succeeds -/

lemma matches_groups_valid {text : List Char} {n : Nat}
    {ms : List (Nat × List Char)}
    (hfs : firstSufficient text n patterns = some ms) :
    ∀ m ∈ ms, m.2 ≠ [] ∧ m.2.all Char.isDigit = true := by
  obtain ⟨p, _, rfl⟩ := firstSufficient_spec hfs
  intro m hm
  obtain ⟨_, _, len, hmh⟩ := findMatches_mem _ _ m hm
  have h := matchHere_some hmh
  exact ⟨h.1, h.2.1⟩

lemma buildSegsE_ok (text : List Char) :
    ∀ (ms : List (Nat × List Char)) (k : Nat),
      (∀ m ∈ ms, m.2 ≠ [] ∧ m.2.all Char.isDigit = true) →
      buildSegsE text ms k = Except.ok (buildSegs text ms k) := by
  intro ms
  induction ms with
  | nil => intro k _; cases k <;> rfl
  | cons m rest ih =>
    intro k hval
    cases k with
    | zero => rfl
    | succ k =>
      obtain ⟨st, g⟩ := m
      have hg := hval (st, g) (by simp)
      have hparse : parseIntE g = Except.ok (digitsToNat g) := by
        unfold parseIntE
        rw [if_pos]
        rw [Bool.and_eq_true, Bool.not_eq_true']
        refine ⟨?_, hg.2⟩
        rw [List.isEmpty_eq_false_iff_exists_mem]
        cases hgc : g with
        | nil => exact absurd hgc hg.1
        | cons a as => exact ⟨a, by simp [hgc]⟩
      show (do
        let num ← parseIntE g
        let tl ← buildSegsE text rest k
        Except.ok ((num,
          pstrip ((text.drop st).take
            ((match rest with
              | (st2, _) :: _ => st2
              | [] => text.length) - st))) :: tl)) = _
      rw [hparse, ih k (fun m2 hm2 => hval m2 (by simp [hm2]))]
      rfl

lemma segmentE_ok (text : List Char) (n : Nat) (hn : 0 < n) :
    segmentE text n = Except.ok (segment text n) := by
  unfold segmentE segment
  cases hfs : firstSufficient text n patterns with
  | none =>
    rw [if_neg (by simp; omega)]
  | some ms =>
    have hval := matches_groups_valid hfs
    show (do
      let segs ← buildSegsE text ms n
      Except.ok (insertAll [] segs)) = _
    rw [buildSegsE_ok text ms n hval]
    rfl

lemma segment_pattern {text : List Char} {n : Nat} {ms : List (Nat × List Char)}
    (h : firstSufficient text n patterns = some ms)
    (hnd : ((buildSegs text ms n).map Prod.fst).Nodup) :
    segment text n = buildSegs text ms n := by
  unfold segment
  rw [h]
  show insertAll [] (buildSegs text ms n) = buildSegs text ms n
  rw [insertAll_eq_append (buildSegs text ms n) [] (by simp) hnd]
  simp

/-! ### More dict facts -/

lemma dictInsert_map_fst (d : List (Nat × List Char)) (k : Nat) (v : List Char) :
    (dictInsert d k v).map Prod.fst = d.map Prod.fst ∨
    (dictInsert d k v).map Prod.fst = d.map Prod.fst ++ [k] := by
  unfold dictInsert
  split
  · left
    rw [List.map_map]
    apply List.map_congr_left
    intro q _
    by_cases hq : (q.1 == k) = true
    · have hqe : q.1 = k := by simpa using hq
      simp [Function.comp_apply, hq, hqe]
    · have hne : q.1 ≠ k := by simpa using hq
      simp [Function.comp_apply, hq, hne]
  · right
    simp

lemma insertAll_keys_subset :
    ∀ (l d : List (Nat × List Char)) (k : Nat),
      k ∈ (insertAll d l).map Prod.fst →
      k ∈ d.map Prod.fst ∨ k ∈ l.map Prod.fst := by
  intro l
  induction l with
  | nil => intro d k h; exact Or.inl h
  | cons p l ih =>
    intro d k h
    have hstep : insertAll d (p :: l) = insertAll (dictInsert d p.1 p.2) l := rfl
    rw [hstep] at h
    rcases ih (dictInsert d p.1 p.2) k h with h1 | h2
    · rcases dictInsert_map_fst d p.1 p.2 with he | he
      · rw [he] at h1
        exact Or.inl h1
      · rw [he] at h1
        rcases List.mem_append.mp h1 with ha | hb
        · exact Or.inl ha
        · right
          simp only [List.mem_singleton] at hb
          simp [hb]
    · right
      simp [h2]

lemma dictInsert_length_ge (d : List (Nat × List Char)) (k : Nat) (v : List Char) :
    d.length ≤ (dictInsert d k v).length := by
  unfold dictInsert
  split
  · simp
  · simp

lemma insertAll_length_ge :
    ∀ (l d : List (Nat × List Char)), d.length ≤ (insertAll d l).length := by
  intro l
  induction l with
  | nil => intro d; exact le_refl _
  | cons p l ih =>
    intro d
    calc d.length ≤ (dictInsert d p.1 p.2).length := dictInsert_length_ge ..
      _ ≤ (insertAll (dictInsert d p.1 p.2) l).length := ih _
      _ = (insertAll d (p :: l)).length := rfl

lemma insertAll_ne_nil {l : List (Nat × List Char)} (hl : l ≠ []) :
    insertAll [] l ≠ [] := by
  cases l with
  | nil => exact absurd rfl hl
  | cons p l =>
    intro habs
    have h1 : insertAll [] (p :: l) = insertAll [(p.1, p.2)] l := rfl
    rw [h1] at habs
    have h2 := insertAll_length_ge l [(p.1, p.2)]
    rw [habs] at h2
    simp at h2

/-! ### Contents on the separator path are nonempty and trimmed -/

lemma ciEq_D_not_space {c : Char} (h : ciEq 'D' c = true) : isSpaceCh c = false := by
  by_contra habs
  rw [Bool.not_eq_false] at habs
  simp only [isSpaceCh, Bool.or_eq_true, beq_iff_eq] at habs
  rcases habs with ((((h1 | h1) | h1) | h1) | h1) | h1 <;> subst h1 <;>
    exact absurd h (by decide)

lemma patterns_word_head : ∀ p ∈ patterns, ∃ w, p.1 = 'D' :: w := by
  intro p hp
  simp only [patterns, List.mem_cons, List.not_mem_nil, or_false] at hp
  rcases hp with h | h | h | h | h <;> subst h <;> exact ⟨_, rfl⟩

lemma buildSegs_content {text pw : List Char} {t : HeadTail} {w : List Char}
    (hpw : pw = 'D' :: w) :
    ∀ (ms : List (Nat × List Char)) (k : Nat),
      (∀ m ∈ ms, m.1 < text.length ∧
        ∃ len, matchHere pw t (text.drop m.1) = some (m.2, len)) →
      List.Chain' (fun a b => a.1 < b.1) ms →
      ∀ q ∈ buildSegs text ms k, q.2 ≠ [] ∧ pstrip q.2 = q.2 := by
  intro ms
  induction ms with
  | nil =>
    intro k _ _ q hq
    cases k <;> simp [buildSegs] at hq
  | cons m rest ih =>
    intro k hmm hch q hq
    cases k with
    | zero => simp [buildSegs] at hq
    | succ k =>
      obtain ⟨st, g⟩ := m
      obtain ⟨hst, len, hmh⟩ := hmm (st, g) (by simp)
      have hci := (matchHere_some hmh).2.2.2
      rw [hpw, List.cons_append] at hci
      obtain ⟨c, cs, hdrop, hceq⟩ := ciLeading_head hci
      have hcsp : isSpaceCh c = false := ciEq_D_not_space hceq
      have hgen : ∀ E : Nat, st + 1 ≤ E →
          pstrip ((text.drop st).take (E - st)) ≠ [] := by
        intro E hE
        rw [hdrop]
        obtain ⟨d, hd⟩ : ∃ d, E - st = d + 1 := ⟨E - st - 1, by omega⟩
        rw [hd, List.take_succ_cons]
        exact pstrip_cons_ne_nil hcsp
      cases rest with
      | nil =>
        simp only [buildSegs] at hq
        have hq2 : q = (digitsToNat g,
            pstrip ((text.drop st).take (text.length - st))) := by
          cases k <;> simpa [buildSegs] using hq
        rw [hq2]
        exact ⟨hgen text.length (by omega), pstrip_idem _⟩
      | cons m2 r2 =>
        obtain ⟨st2, g2⟩ := m2
        have hlt : st < st2 := (List.chain'_cons.mp hch).1
        simp only [buildSegs] at hq
        rcases List.mem_cons.mp hq with h1 | h2
        · rw [h1]
          exact ⟨hgen st2 (by omega), pstrip_idem _⟩
        · exact ih k (fun mm hmem => hmm mm (by simp [hmem]))
            (List.chain'_cons.mp hch).2 q h2

/-! ### The two uppercase candidates are redundant -/

lemma ciEq_congr {a b : Char} (hab : a.toLower = b.toLower) (c : Char) :
    ciEq a c = ciEq b c := by
  simp [ciEq, hab]

lemma ciLeading_congr :
    ∀ (p q : List Char), p.map Char.toLower = q.map Char.toLower →
      ∀ s : List Char, ciLeading p s = ciLeading q s := by
  intro p
  induction p with
  | nil =>
    intro q h s
    rw [List.map_nil] at h
    have hq : q = [] := by
      cases q with
      | nil => rfl
      | cons b bs => simp at h
    subst hq
    rfl
  | cons a p ih =>
    intro q h s
    cases q with
    | nil => simp at h
    | cons b bs =>
      simp only [List.map_cons, List.cons.injEq] at h
      cases s with
      | nil => rfl
      | cons c cs =>
        simp only [ciLeading]
        rw [ciEq_congr h.1, ih bs h.2 cs]

lemma matchHere_congr (t : HeadTail) (s : List Char) :
    matchHere dayUpper t s = matchHere dayLower t s := by
  unfold matchHere
  rw [ciLeading_congr (dayUpper ++ [' ']) (dayLower ++ [' ']) (by decide) s]
  rfl

lemma findMatchesAux_congr (t : HeadTail) :
    ∀ (s : List Char) (pos skip : Nat),
      findMatchesAux dayUpper t s pos skip
        = findMatchesAux dayLower t s pos skip := by
  intro s
  induction s with
  | nil => intro pos skip; rfl
  | cons c cs ih =>
    intro pos skip
    cases skip with
    | succ sk =>
      show findMatchesAux dayUpper t cs (pos + 1) sk
        = findMatchesAux dayLower t cs (pos + 1) sk
      exact ih (pos + 1) sk
    | zero =>
      simp only [findMatchesAux]
      rw [matchHere_congr]
      cases hmc : matchHere dayLower t (c :: cs) with
      | some r =>
        obtain ⟨g, len⟩ := r
        show (pos, g) :: findMatchesAux dayUpper t cs (pos + 1) (len - 1)
          = (pos, g) :: findMatchesAux dayLower t cs (pos + 1) (len - 1)
        rw [ih (pos + 1) (len - 1)]
      | none =>
        show findMatchesAux dayUpper t cs (pos + 1) 0
          = findMatchesAux dayLower t cs (pos + 1) 0
        exact ih (pos + 1) 0

lemma findMatches_congr (t : HeadTail) (s : List Char) (pos : Nat) :
    findMatches dayUpper t s pos = findMatches dayLower t s pos :=
  findMatchesAux_congr t s pos 0

lemma dictInsert_mem_subset {d : List (Nat × List Char)} {k : Nat}
    {v : List Char} {q : Nat × List Char} (hq : q ∈ dictInsert d k v) :
    q ∈ d ∨ q = (k, v) := by
  unfold dictInsert at hq
  split at hq
  · rw [List.mem_map] at hq
    obtain ⟨p, hp, hpe⟩ := hq
    by_cases hc : (p.1 == k) = true
    · right
      rw [← hpe]
      simp [hc]
    · left
      rw [← hpe]
      simp only [hc, if_false]
      simpa [hc] using hp
  · rcases List.mem_append.mp hq with h | h
    · exact Or.inl h
    · right
      simpa using h

lemma insertAll_mem_subset :
    ∀ (l d : List (Nat × List Char)) (q : Nat × List Char),
      q ∈ insertAll d l → q ∈ d ∨ q ∈ l := by
  intro l
  induction l with
  | nil => intro d q h; exact Or.inl h
  | cons p l ih =>
    intro d q h
    have hstep : insertAll d (p :: l) = insertAll (dictInsert d p.1 p.2) l := rfl
    rw [hstep] at h
    rcases ih (dictInsert d p.1 p.2) q h with h1 | h2
    · rcases dictInsert_mem_subset h1 with ha | hb
      · exact Or.inl ha
      · right
        simp [hb]
    · right
      simp [h2]

lemma headChars_ne_nil (d : Nat) : headChars d ≠ [] := by
  unfold headChars
  intro h
  rw [List.append_eq_nil, List.append_eq_nil] at h
  exact absurd h.1.1 (by decide)

lemma firstSufficient_five_three (text : List Char) (n : Nat) :
    firstSufficient text n patterns = firstSufficient text n patternsFirstThree := by
  simp only [patterns, patternsFirstThree, firstSufficient, matchesOf]
  rw [findMatches_congr HeadTail.colon, findMatches_congr HeadTail.bare]
  by_cases h1 : n ≤ (findMatches dayLower HeadTail.colon text 0).length <;>
    by_cases h2 : n ≤ (findMatches dayLower HeadTail.newline text 0).length <;>
      by_cases h3 : n ≤ (findMatches dayLower HeadTail.bare text 0).length <;>
        simp [h1, h2, h3]

/-- When the day numbers the run keys (`takenNums`) are pairwise distinct,
no dict write overwrites an earlier one, so the mapping has exactly `n`
entries. -/
lemma segment_length_of_nodup (text : List Char) (n : Nat)
    (hnd : (takenNums text n).Nodup) :
    (segment text n).length = n := by
  unfold segment
  cases hfs : firstSufficient text n patterns with
  | some ms =>
    have hkeys : (buildSegs text ms n).map Prod.fst = takenNums text n := by
      rw [buildSegs_map_fst]
      unfold takenNums
      rw [hfs]
    show (insertAll [] (buildSegs text ms n)).length = n
    rw [insertAll_eq_append _ [] (by simp) (by rw [hkeys]; exact hnd)]
    rw [List.nil_append, buildSegs_length]
    have := firstSufficient_le hfs
    omega
  | none =>
    show (insertAll [] (fallbackSeg text n)).length = n
    rw [insertAll_eq_append _ [] (by simp) (fallbackSeg_nodup_keys text n)]
    rw [List.nil_append, fallbackSeg_length]

/-! ## The claims -/

/-- C1: the claim as stated is false on the code.  On
`"Day 1: a\nDay 1: b"` with `expectedDays = 2` the first candidate yields
two matches, but both carry the written day number `1`, so the two dict
writes collapse into a single entry and the mapping has 1 entry, not 2. -/
theorem C1_duplicate_day_counterexample :
    (segment ("Day 1: a\nDay 1: b").toList 2).length ≠ 2 := by decide

/-- C1 (amended): the mapping has exactly `expectedDays` entries whenever the
day numbers the run keys (`takenNums`: the numbers parsed from the first
`expectedDays` matches of the selected pattern, or `1..n` on the fallback
path) are pairwise distinct; duplicated written day numbers among the taken
matches collapse into fewer entries. -/
theorem C1_entry_count (text : List Char) (n : Nat) (hn : 0 < n)
    (hnd : (takenNums text n).Nodup) :
    (segment text n).length = n :=
  segment_length_of_nodup text n hnd

/-- Witness for C1 (amended) at `"Day 1: a\nDay 2: b"`, `expectedDays = 2`. -/
theorem C1_entry_count_witness :
    0 < 2 ∧ (takenNums ("Day 1: a\nDay 2: b").toList 2).Nodup ∧
      (segment ("Day 1: a\nDay 2: b").toList 2).length = 2 :=
  ⟨by decide, by decide, C1_entry_count ("Day 1: a\nDay 2: b").toList 2
    (by decide) (by decide)⟩

/-- C2: the candidates are tried strictly in the declared order and the
first one with at least `expectedDays` matches is the one segmented with —
no later candidate is consulted even if it would match; in particular, when
both the colon-suffixed and the bare `Day` pattern have at least
`expectedDays` matches, the colon-suffixed pattern's segmentation is
returned. -/
theorem C2_first_sufficient_order (text : List Char) (n : Nat) :
    (∀ pre p post, patterns = pre ++ p :: post →
      (∀ q ∈ pre, (matchesOf q text).length < n) →
      n ≤ (matchesOf p text).length →
      segment text n = insertAll [] (buildSegs text (matchesOf p text) n)) ∧
    (n ≤ (matchesOf (dayLower, HeadTail.colon) text).length →
      n ≤ (matchesOf (dayLower, HeadTail.bare) text).length →
      segment text n = insertAll []
        (buildSegs text (matchesOf (dayLower, HeadTail.colon) text) n)) := by
  constructor
  · intro pre p post hsplit hpre hp
    unfold segment
    rw [hsplit, firstSufficient_first pre p post hpre hp]
  · intro hc _
    unfold segment
    have hsplit : patterns = [] ++ (dayLower, HeadTail.colon) ::
        [(dayLower, HeadTail.newline), (dayLower, HeadTail.bare),
         (dayUpper, HeadTail.colon), (dayUpper, HeadTail.bare)] := rfl
    rw [hsplit, firstSufficient_first [] _ _ (by simp) hc]

/-- Witness for C2 at `"Day 1: a\nDay 2: b"` where both the colon-suffixed
and the bare pattern yield 2 matches. -/
theorem C2_first_sufficient_witness :
    segment ("Day 1: a\nDay 2: b").toList 2 = insertAll []
      (buildSegs ("Day 1: a\nDay 2: b").toList
        (matchesOf (dayLower, HeadTail.colon) ("Day 1: a\nDay 2: b").toList) 2) :=
  (C2_first_sufficient_order ("Day 1: a\nDay 2: b").toList 2).2
    (by decide) (by decide)

/-- C3: the claim as stated is false on the code.  On
`"Day 1: a\nDay 2: b\nDay 3: c"` with `expectedDays = 2` the colon pattern
yields three matches; the claim says the last taken segment (day 2, match
start 9) extends to the end of the text, i.e. holds
`"Day 2: b\nDay 3: c"`, but the code stops it at the start of the third,
untaken match and stores `"Day 2: b"`. -/
theorem C3_last_segment_counterexample :
    lookupDay (segment ("Day 1: a\nDay 2: b\nDay 3: c").toList 2) 2
      ≠ some (pstrip (("Day 1: a\nDay 2: b\nDay 3: c").toList.drop 9)) := by
  decide

/-- C3 (amended): when a pattern qualifies, the `i`-th taken segment is
keyed by the number parsed from its own heading and holds the trimmed slice
of the text from its match's start offset to the start offset of match
`i+1` in the selected pattern's **full** match list — or to the end of the
text when no later match exists; so the last taken segment extends to the
end of the text exactly when the pattern yields exactly `expectedDays`
matches. -/
theorem C3_segment_spans (text : List Char) (n : Nat)
    (ms : List (Nat × List Char))
    (hfs : firstSufficient text n patterns = some ms)
    (i st : Nat) (g : List Char) (hi : i < n) (hms : ms[i]? = some (st, g)) :
    segment text n = insertAll [] (buildSegs text ms n) ∧
    (buildSegs text ms n)[i]? =
      some (digitsToNat g,
        pstrip ((text.drop st).take (nextStart text ms i - st))) := by
  constructor
  · unfold segment
    rw [hfs]
  · exact buildSegs_get text ms n i st g hi hms

/-- Witness for C3 (amended) at the counterexample input: the last taken
segment (index 1) ends at offset 18, the start of the untaken third match. -/
theorem C3_segment_spans_witness :
    segment ("Day 1: a\nDay 2: b\nDay 3: c").toList 2 = insertAll []
      (buildSegs ("Day 1: a\nDay 2: b\nDay 3: c").toList
        [(0, ['1']), (9, ['2']), (18, ['3'])] 2) ∧
    (buildSegs ("Day 1: a\nDay 2: b\nDay 3: c").toList
        [(0, ['1']), (9, ['2']), (18, ['3'])] 2)[1]? =
      some (digitsToNat ['2'],
        pstrip ((("Day 1: a\nDay 2: b\nDay 3: c").toList.drop 9).take
          (nextStart ("Day 1: a\nDay 2: b\nDay 3: c").toList
            [(0, ['1']), (9, ['2']), (18, ['3'])] 1 - 9))) :=
  C3_segment_spans ("Day 1: a\nDay 2: b\nDay 3: c").toList 2
    [(0, ['1']), (9, ['2']), (18, ['3'])] (by decide) 1 9 ['2']
    (by decide) (by decide)

/-- C4: the claim as stated is false on the code.  The code strips the text
before splitting into lines: on `"\na\nb\n"` with `expectedDays = 2` the
claim predicts lines `["", "a", "b", ""]`, hence `linesPerDay = 2` and day 1
content `"Day 1:\n\na"`, but the code strips first (lines `["a", "b"]`,
`linesPerDay = 1`) and produces `"Day 1:\na"`. -/
theorem C4_strip_counterexample :
    lookupDay (segment ("\na\nb\n").toList 2) 1
      ≠ some ("Day 1:\n\na").toList := by decide

/-- C4 (amended): when no candidate qualifies, the fallback splits the
**whitespace-stripped** text into lines, sets
`linesPerDay = max 1 (totalLines / expectedDays)` by integer division, and
maps day `d` (1-indexed) to the synthesized heading `"Day <d>:"` plus a
newline followed by the joined lines of the index range
`[(d-1)*linesPerDay, d*linesPerDay)`, the last day taking all remaining
lines to the end (this is `fallbackDayLines`). -/
theorem C4_fallback_split (text : List Char) (n : Nat) (hn : 0 < n)
    (hfs : firstSufficient text n patterns = none) (d : Nat)
    (h1 : 1 ≤ d) (h2 : d ≤ n) :
    lookupDay (segment text n) d
      = some (headChars d ++ joinNL (fallbackDayLines text n d)) := by
  rw [segment_fallback hfs]
  exact lookupDay_eq_of_mem _ d _ (fallbackSeg_nodup_keys text n)
    (fallbackSeg_mem text n d h1 h2)

/-- Witness for C4 (amended) at a three-line text with no headings,
`expectedDays = 2`, day 2. -/
theorem C4_fallback_split_witness :
    lookupDay (segment ("no days here\njust lines\nthree of them").toList 2) 2
      = some (headChars 2 ++ joinNL
          (fallbackDayLines ("no days here\njust lines\nthree of them").toList 2 2)) :=
  C4_fallback_split ("no days here\njust lines\nthree of them").toList 2
    (by decide) (by decide) 2 (by decide) (by decide)

/-- C5: the claim as stated is false on the code.  On `"a\n\n"` with
`expectedDays = 1` (fallback path) the single entry is `"Day 1:\na"`: its
body lines are `["a"]`, but the lines of the unstripped input are
`["a", "", ""]`, so the bodies do not reproduce every line of the input. -/
theorem C5_strip_counterexample :
    lookupDay (segment ("a\n\n").toList 1) 1 = some ("Day 1:\na").toList ∧
    (splitNL ("Day 1:\na").toList).drop 1 ≠ splitNL ("a\n\n").toList := by
  decide

/-- C5 (amended): on the fallback path the day bodies partition the lines of
the **whitespace-stripped** input: day `d`'s entry is the synthesized
heading followed by its joined line slice, and concatenating the slices of
days `1..expectedDays` in day order yields exactly the line list of the
stripped text — every such line once, in the original order. -/
theorem C5_fallback_partition (text : List Char) (n : Nat) (hn : 0 < n)
    (hfs : firstSufficient text n patterns = none) :
    (∀ d, 1 ≤ d → d ≤ n →
      lookupDay (segment text n) d
        = some (headChars d ++ joinNL (fallbackDayLines text n d))) ∧
    ((List.range n).map (fun d0 => fallbackDayLines text n (d0 + 1))).flatten
      = splitNL (pstrip text) := by
  constructor
  · intro d h1 h2
    rw [segment_fallback hfs]
    exact lookupDay_eq_of_mem _ d _ (fallbackSeg_nodup_keys text n)
      (fallbackSeg_mem text n d h1 h2)
  · exact fallback_partition text n hn

/-- Witness for C5 (amended) at a three-line text with no headings,
`expectedDays = 2`. -/
theorem C5_fallback_partition_witness :
    (∀ d, 1 ≤ d → d ≤ 2 →
      lookupDay (segment ("no days here\njust lines\nthree of them").toList 2) d
        = some (headChars d ++ joinNL
            (fallbackDayLines ("no days here\njust lines\nthree of them").toList 2 d))) ∧
    ((List.range 2).map (fun d0 =>
        fallbackDayLines ("no days here\njust lines\nthree of them").toList 2 (d0 + 1))).flatten
      = splitNL (pstrip ("no days here\njust lines\nthree of them").toList) :=
  C5_fallback_partition ("no days here\njust lines\nthree of them").toList 2
    (by decide) (by decide)

/-- C6: on the separator path each entry is keyed by the integer parsed
from the numeric capture group of its own heading, not by its position:
when the written numbers of the taken matches are pairwise distinct, the
entry keyed by the `i`-th heading's parsed number holds exactly the `i`-th
segment's content — also when headings occur out of numeric order in the
text. -/
theorem C6_keys_parsed_from_headings (text : List Char) (n : Nat)
    (ms : List (Nat × List Char))
    (hfs : firstSufficient text n patterns = some ms)
    (hnd : (takenNums text n).Nodup) (i st : Nat) (g : List Char)
    (hi : i < n) (hms : ms[i]? = some (st, g)) :
    lookupDay (segment text n) (digitsToNat g)
      = some (pstrip ((text.drop st).take (nextStart text ms i - st))) := by
  have hkeys : (buildSegs text ms n).map Prod.fst = takenNums text n := by
    rw [buildSegs_map_fst]
    unfold takenNums
    rw [hfs]
  rw [segment_pattern hfs (by rw [hkeys]; exact hnd)]
  have hget := buildSegs_get text ms n i st g hi hms
  exact lookupDay_eq_of_mem _ _ _ (by rw [hkeys]; exact hnd)
    (List.getElem?_mem hget)

/-- Witness for C6 at `"Day 2\nxx\nDay 1\nyy"`, where `"Day 2"` precedes
`"Day 1"`: entry 2 holds the content following the first-encountered
`"Day 2"` heading. -/
theorem C6_keys_witness :
    lookupDay (segment ("Day 2\nxx\nDay 1\nyy").toList 2) (digitsToNat ['2'])
      = some (pstrip ((("Day 2\nxx\nDay 1\nyy").toList.drop 0).take
          (nextStart ("Day 2\nxx\nDay 1\nyy").toList
            [(0, ['2']), (9, ['1'])] 0 - 0))) :=
  C6_keys_parsed_from_headings ("Day 2\nxx\nDay 1\nyy").toList 2
    [(0, ['2']), (9, ['1'])] (by decide) (by decide) 0 0 ['2']
    (by decide) (by decide)

/-- C7: the claim as stated is false on the code.  Error-freedom holds, but
the claim also asserts a fully populated result — per its spec sources,
exactly `expectedDays` entries — for every input: on
`"Day 1: a\nDay 1: b"` with `expectedDays = 2` the error-aware run
completes with `ok` (no error outcome), yet the returned mapping has a
single entry, not `expectedDays` of them. -/
theorem C7_not_fully_populated_counterexample :
    segmentE ("Day 1: a\nDay 1: b").toList 2
      = Except.ok (segment ("Day 1: a\nDay 1: b").toList 2) ∧
    (segment ("Day 1: a\nDay 1: b").toList 2).length ≠ 2 :=
  ⟨rfl, by decide⟩

/-- C7 (amended): the segmenter is total and error-free: for every input
text and positive `expectedDays` the error-aware run (`segmentE`, which
makes the `int(...)` parse of each capture group and the fallback integer
division fallible) returns `ok` of the pure result — no error outcome is
observable on either path — and the returned mapping is nonempty; it is
fully populated (exactly `expectedDays` entries) only when the keyed day
numbers are pairwise distinct, duplicate written day numbers leaving fewer
entries behind with no error raised. -/
theorem C7_total_no_error (text : List Char) (n : Nat) (hn : 0 < n) :
    segmentE text n = Except.ok (segment text n) ∧ segment text n ≠ [] ∧
      ((takenNums text n).Nodup → (segment text n).length = n) := by
  refine ⟨segmentE_ok text n hn, ?_, segment_length_of_nodup text n⟩
  unfold segment
  cases hfs : firstSufficient text n patterns with
  | some ms =>
    show insertAll [] (buildSegs text ms n) ≠ []
    apply insertAll_ne_nil
    have hlen : (buildSegs text ms n).length = min n ms.length :=
      buildSegs_length ..
    have hge := firstSufficient_le hfs
    intro habs
    rw [habs] at hlen
    simp only [List.length_nil] at hlen
    omega
  | none =>
    show insertAll [] (fallbackSeg text n) ≠ []
    apply insertAll_ne_nil
    intro habs
    have hlen := fallbackSeg_length text n
    rw [habs] at hlen
    simp only [List.length_nil] at hlen
    omega

/-- Witness for C7 (amended) at the empty text, `expectedDays = 1` (the
fallback path, whose keys `1..n` are distinct, so the mapping is fully
populated there). -/
theorem C7_total_no_error_witness :
    segmentE ([] : List Char) 1 = Except.ok (segment ([] : List Char) 1) ∧
      segment ([] : List Char) 1 ≠ [] ∧
      ((takenNums ([] : List Char) 1).Nodup →
        (segment ([] : List Char) 1).length = 1) :=
  C7_total_no_error [] 1 (by decide)

/-- C8: the claim as stated is false on the code.  Fallback contents are
never trimmed: on the empty input with `expectedDays = 1` the single entry
is the synthesized `"Day 1:\n"`, which ends in a newline and so differs
from its trimmed form. -/
theorem C8_untrimmed_counterexample :
    ∃ q ∈ segment ([] : List Char) 1, pstrip q.2 ≠ q.2 := by decide

/-- C8 (amended): every content string in the returned mapping is nonempty,
on both paths; on the separator path every content additionally equals its
own whitespace-trimmed form, while fallback contents begin with the
synthesized heading but may carry trailing whitespace. -/
theorem C8_contents (text : List Char) (n : Nat) (hn : 0 < n) :
    (∀ q ∈ segment text n, q.2 ≠ []) ∧
    (∀ ms, firstSufficient text n patterns = some ms →
      ∀ q ∈ segment text n, pstrip q.2 = q.2) := by
  have hpat : ∀ ms, firstSufficient text n patterns = some ms →
      ∀ q ∈ segment text n, q.2 ≠ [] ∧ pstrip q.2 = q.2 := by
    intro ms hfs q hq
    obtain ⟨p, hp, hms⟩ := firstSufficient_spec hfs
    obtain ⟨w, hw⟩ := patterns_word_head p hp
    have hq2 : q ∈ buildSegs text ms n := by
      unfold segment at hq
      rw [hfs] at hq
      have hq3 : q ∈ insertAll [] (buildSegs text ms n) := hq
      rcases insertAll_mem_subset _ [] q hq3 with h | h
      · simp at h
      · exact h
    refine @buildSegs_content text p.1 p.2 w hw ms n ?_ ?_ q hq2
    · intro m hm
      rw [hms] at hm
      obtain ⟨hle, hlt, len, hmh⟩ := findMatches_mem text 0 m hm
      exact ⟨by omega, len, by simpa using hmh⟩
    · rw [hms]
      exact findMatches_chain text 0
  constructor
  · intro q hq
    cases hfs : firstSufficient text n patterns with
    | some ms => exact (hpat ms hfs q hq).1
    | none =>
      have hq2 : q ∈ fallbackSeg text n := by
        rw [segment_fallback hfs] at hq
        exact hq
      unfold fallbackSeg at hq2
      rw [List.mem_map] at hq2
      obtain ⟨d0, _, hqe⟩ := hq2
      rw [← hqe]
      intro habs
      rw [List.append_eq_nil] at habs
      exact headChars_ne_nil (d0 + 1) habs.1
  · intro ms hfs q hq
    exact (hpat ms hfs q hq).2

/-- Witness for C8 (amended) at `"Day 1: a\nDay 2: b"`, `expectedDays = 2`. -/
theorem C8_contents_witness :
    (∀ q ∈ segment ("Day 1: a\nDay 2: b").toList 2, q.2 ≠ []) ∧
    (∀ ms, firstSufficient ("Day 1: a\nDay 2: b").toList 2 patterns = some ms →
      ∀ q ∈ segment ("Day 1: a\nDay 2: b").toList 2, pstrip q.2 = q.2) :=
  C8_contents ("Day 1: a\nDay 2: b").toList 2 (by decide)

/-- C9: the claim as stated is false on the code.  On `"Day 0: rest"` with
`expectedDays = 1` the heading's digit group is `"0"`, so the returned key
is `0`, which is not a positive day number. -/
theorem C9_zero_day_counterexample :
    ¬(∀ k ∈ (segment ("Day 0: rest").toList 1).map Prod.fst, 1 ≤ k) := by
  decide

/-- C9 (amended): keys are nonnegative integers; on the fallback path every
key is positive (it is one of `1..expectedDays`), while on the separator
path every key is the integer parsed from the digit group of one of the
taken headings — which may be `0` when the text writes `"Day 0"`. -/
theorem C9_keys (text : List Char) (n : Nat) (hn : 0 < n) :
    (firstSufficient text n patterns = none →
      ∀ k ∈ (segment text n).map Prod.fst, 1 ≤ k) ∧
    (∀ ms, firstSufficient text n patterns = some ms →
      ∀ k ∈ (segment text n).map Prod.fst,
        ∃ m ∈ ms.take n, digitsToNat m.2 = k) := by
  constructor
  · intro hfs k hk
    rw [segment_fallback hfs, fallbackSeg_map_fst] at hk
    rw [List.mem_map] at hk
    obtain ⟨d0, _, hd⟩ := hk
    omega
  · intro ms hfs k hk
    unfold segment at hk
    rw [hfs] at hk
    have hk2 : k ∈ (insertAll [] (buildSegs text ms n)).map Prod.fst := hk
    rcases insertAll_keys_subset _ [] k hk2 with h | h
    · simp at h
    · rw [buildSegs_map_fst] at h
      rw [List.mem_map] at h
      obtain ⟨m, hm, he⟩ := h
      exact ⟨m, hm, he⟩

/-- Witness for C9 (amended) at the counterexample input `"Day 0: rest"`,
`expectedDays = 1`. -/
theorem C9_keys_witness :
    (firstSufficient ("Day 0: rest").toList 1 patterns = none →
      ∀ k ∈ (segment ("Day 0: rest").toList 1).map Prod.fst, 1 ≤ k) ∧
    (∀ ms, firstSufficient ("Day 0: rest").toList 1 patterns = some ms →
      ∀ k ∈ (segment ("Day 0: rest").toList 1).map Prod.fst,
        ∃ m ∈ ms.take 1, digitsToNat m.2 = k) :=
  C9_keys ("Day 0: rest").toList 1 (by decide)

/-- C10: the two uppercase candidates are dead code: every candidate is
matched case-insensitively, so any text giving an uppercase pattern enough
matches gives the corresponding earlier lowercase pattern the same matches
at the same offsets; the segmenter restricted to the first three candidates
is observably equal to the full five-candidate segmenter on every input. -/
theorem C10_uppercase_redundant (text : List Char) (n : Nat) :
    segment text n = segmentFirstThree text n := by
  unfold segment segmentFirstThree
  rw [firstSufficient_five_three]

end FitnessSeg
